import Mathlib

/-!
Rockbox: buflib handle table, battery tables, SDL PCM driver.

A shallow embedding of

* `firmware/include/buflib_mempool.h` (cell union, context, overhead constant,
  `buflib_get_data`),
* `firmware/target/hosted/agptek/powermgmt-agptek.c` (battery voltage tables),
* `firmware/target/hosted/sdl/pcm-sdl.c` (playback lock counter, the transfer
  step of the audio callback),

followed by a block-level model of the allocator operations whose bodies are
not part of the header (allocate, free, shrink, compaction).

Addresses of pool cells are counted in cells (`union buflib_data` units), so
`p[-h]` is the cell `p - h`.
-/

namespace Rockbox

/-! ## firmware/include/buflib_mempool.h -/

/-- One pool cell, `union buflib_data`. All members of the union name the same
storage word; the word is kept in `raw` and every member is a view of it. -/
structure buflib_data where
  raw : Nat
deriving DecidableEq

/-- Member `char* alloc`: start of the allocated memory area. -/
def buflib_data.alloc (d : buflib_data) : Nat := d.raw

/-- Member `union buflib_data *handle`: pointer to an entry of the handle
table; a free slot keeps its free-list link in the same word. -/
def buflib_data.handle (d : buflib_data) : Nat := d.raw

/-- The fields of `struct buflib_context`; the pointers are cell addresses. -/
structure buflib_context where
  handle_table : Int
  first_free_handle : Int
  last_handle : Int
  buf_start : Int
  alloc_end : Int
  compact : Bool

/-- The memory the context points into: the cell stored at every cell address. -/
abbrev Memory := Int → buflib_data

/-- The macro `BUFLIB_ALLOC_OVERHEAD`, `(4 * sizeof(union buflib_data))`, with
`sizeof(union buflib_data)` as the argument. -/
def BUFLIB_ALLOC_OVERHEAD (sizeof_buflib_data : Nat) : Nat := 4 * sizeof_buflib_data

/-- A value of the C type `int`: 32 bits, two's complement. -/
@[ext]
structure CInt where
  val : Int
  lo : -2147483648 ≤ val
  hi : val < 2147483648

/-- Reduction of an integer to the range of `int`, as 32-bit arithmetic does. -/
def wrapInt32 (x : Int) : Int := (x + 2147483648) % 4294967296 - 2147483648

/-- Conversion of an integer to `int`. -/
def CInt.ofInt (x : Int) : CInt :=
  ⟨wrapInt32 x, by unfold wrapInt32; omega, by unfold wrapInt32; omega⟩

/-- Unary minus on `int`, in 32 bits: `-h` for every `h` but `INT_MIN`, which
it maps to itself. -/
def CInt.neg (h : CInt) : CInt := CInt.ofInt (-h.val)

/-- The least `int`, `INT_MIN`. -/
def INT_MIN : CInt := CInt.ofInt (-2147483648)

/-- The accessor `buflib_get_data`:
`return (void *)ctx->handle_table[-handle].alloc;` with `int handle`. -/
def buflib_get_data (ctx : buflib_context) (mem : Memory) (handle : CInt) : Nat :=
  (mem (ctx.handle_table + (CInt.neg handle).val)).alloc

/-- The store `ctx->handle_table[-handle].alloc = p`, the write a relocation
performs on the slot of the block it moved. -/
def store_alloc (ctx : buflib_context) (mem : Memory) (handle : CInt) (p : Nat) : Memory :=
  fun a => if a = ctx.handle_table + (CInt.neg handle).val then ⟨p⟩ else mem a

/-- A handle names a slot of the occupied part of the table when it is positive
and the cell `handle` below `handle_table` lies in `[last_handle, handle_table)`:
`last_handle` is the lowest occupied slot and the table grows downward from
`handle_table`. -/
def handleInTable (ctx : buflib_context) (handle : CInt) : Prop :=
  0 < handle.val ∧ ctx.last_handle ≤ ctx.handle_table - handle.val

instance (ctx : buflib_context) (handle : CInt) : Decidable (handleInTable ctx handle) := by
  unfold handleInTable; infer_instance

/-- Modelled from the spec: the length in cells of an allocated block, which
the absent allocator computes; the request is rounded up to cell granularity
and the header overhead of four cells is added (`cell` is the cell width in
bytes, `size` the requested payload in bytes). -/
def blockCells (cell size : Nat) : Nat := 4 + (size + cell - 1) / cell

/-- A two-slot table ending at cell 100, used for concrete evaluation. -/
def ctxEx : buflib_context :=
  { handle_table := 100, first_free_handle := 0, last_handle := 98,
    buf_start := 0, alloc_end := 90, compact := false }

/-- A memory in which the cell just above the table (cell 100) and the slot of
handle 1 (cell 99) hold the same word. -/
def memEx : Memory := fun a =>
  if a = 100 then ⟨48879⟩ else if a = 99 then ⟨48879⟩ else if a = 98 then ⟨64⟩ else ⟨0⟩

/-- A memory that holds 1111 in the cell `2^31` below cell 100, 2222 in the
cell `2^31` above it, and 0 elsewhere. -/
def memFar : Memory := fun a =>
  if a = 100 - 2147483648 then ⟨1111⟩ else if a = 100 + 2147483648 then ⟨2222⟩ else ⟨0⟩

/-! ## firmware/target/hosted/agptek/powermgmt-agptek.c -/

/-- The table `battery_level_dangerous[BATTERY_TYPES_COUNT]`. -/
def battery_level_dangerous : List Nat := [3470]

/-- The table `battery_level_shutoff[BATTERY_TYPES_COUNT]`: the OF shuts down at
this voltage. -/
def battery_level_shutoff : List Nat := [3400]

/-- The table `percent_to_volt_discharge[BATTERY_TYPES_COUNT][11]`: millivolts at 0%,
10%, ... 100% when charging is disabled. -/
def percent_to_volt_discharge : List (List Nat) :=
  [[3400, 3480, 3560, 3640, 3720, 3800, 3880, 3960, 4040, 4120, 4200]]

/-- The table `percent_to_volt_charge[11]`: millivolts at 0%, 10%, ... 100% when
charging. -/
def percent_to_volt_charge : List Nat :=
  [3450, 3670, 3721, 3751, 3782, 3821, 3876, 3941, 4034, 4125, 4200]

/-! ## firmware/target/hosted/sdl/pcm-sdl.c -/

/-- What the playback lock reads and writes: the counter `audio_locked`
(a C `int`; signed overflow is undefined in C, so it is an integer here), the
number of holds the caller has on the recursive SDL mutex `audio_lock`, and how
many times `SDL_LockMutex` and `SDL_UnlockMutex` were called on it. -/
structure LockState where
  audio_locked : Int
  mutex_depth : Nat
  acquired : Nat
  released : Nat
deriving DecidableEq

/-- A call of `SDL_LockMutex(audio_lock)` by the caller. -/
def SDL_LockMutex (s : LockState) : LockState :=
  { s with mutex_depth := s.mutex_depth + 1, acquired := s.acquired + 1 }

/-- A call of `SDL_UnlockMutex(audio_lock)` by the caller. -/
def SDL_UnlockMutex (s : LockState) : LockState :=
  { s with mutex_depth := s.mutex_depth - 1, released := s.released + 1 }

/-- The function `pcm_play_lock`:
`if (++audio_locked == 1) SDL_LockMutex(audio_lock);` -/
def pcm_play_lock (s : LockState) : LockState :=
  let s1 := { s with audio_locked := s.audio_locked + 1 }
  if s1.audio_locked = 1 then SDL_LockMutex s1 else s1

/-- The function `pcm_play_unlock`:
`if (--audio_locked == 0) SDL_UnlockMutex(audio_lock);` -/
def pcm_play_unlock (s : LockState) : LockState :=
  let s1 := { s with audio_locked := s.audio_locked - 1 }
  if s1.audio_locked = 0 then SDL_UnlockMutex s1 else s1

/-- The function `pcm_dma_apply_settings`: lock, `pcm_dma_apply_settings_nolock` (which does
not touch the lock state), unlock. -/
def pcm_dma_apply_settings (s : LockState) : LockState :=
  pcm_play_unlock (pcm_play_lock s)

/-- The state at program start: `audio_locked = 0`, mutex not held. -/
def lockInit : LockState :=
  { audio_locked := 0, mutex_depth := 0, acquired := 0, released := 0 }

/-- A call of one of the two locking functions. -/
inductive PcmCall
  | lock
  | unlock
deriving DecidableEq

/-- Execute one call. -/
def PcmCall.step (c : PcmCall) (s : LockState) : LockState :=
  match c with
  | .lock => pcm_play_lock s
  | .unlock => pcm_play_unlock s

/-- Execute a sequence of calls, first to last. -/
def runCalls (calls : List PcmCall) (s : LockState) : LockState :=
  calls.foldl (fun st c => c.step st) s

/-- The two sample counters of `struct pcm_udata` (both `Uint32`). -/
structure pcm_udata where
  num_in : Nat
  num_out : Nat
deriving DecidableEq

/-- Conversion of a value to `Uint32`. -/
def toUint32 (x : Nat) : Nat := x % 2 ^ 32

/-- Conversion of a value to `size_t`, `bits` wide. -/
def toSize (bits x : Nat) : Nat := x % 2 ^ bits

/-- Conversion of an `int` to `size_t`, `bits` wide. -/
def intToSize (bits : Nat) (i : Int) : Nat := (i % (2 : Int) ^ bits).toNat

/-- Conversion of a 32-bit unsigned value to `int` (two's complement). -/
def toInt32 (x : Nat) : Int :=
  if x % 2 ^ 32 < 2 ^ 31 then (x % 2 ^ 32 : Nat) else ((x % 2 ^ 32 : Nat) : Int) - 2 ^ 32

/-- The function `write_to_soundcard`. The branch taken when `cvt.needed` holds works in
floating point and is the argument `convert`; the other branch is
`udata->num_in = udata->num_out = MIN(udata->num_in, udata->num_out);`
followed by the copy of `num_out * pcm_sample_bytes` bytes. -/
def write_to_soundcard (cvt_needed : Bool) (convert : pcm_udata → pcm_udata)
    (udata : pcm_udata) : pcm_udata :=
  if cvt_needed then convert udata
  else
    let m := min udata.num_in udata.num_out
    { num_in := m, num_out := m }

/-- The variables one pass through the loop body of `sdl_audio_callback`
updates: `pcm_data_size` (a `size_t`), `len` (an `int`) and `udata`. -/
structure CallbackState where
  pcm_data_size : Nat
  len : Int
  udata : pcm_udata
deriving DecidableEq

/-- The two assignments of `sdl_audio_callback` after the label `start:`,
`udata->num_in = pcm_data_size / pcm_sample_bytes;` and
`udata->num_out = len / pcm_sample_bytes;`. Both quotients are computed in
`size_t` (`bits` wide) and stored in a `Uint32`. -/
def load_counts (bits pcm_sample_bytes : Nat) (st : CallbackState) : pcm_udata :=
  { num_in := toUint32 (st.pcm_data_size / pcm_sample_bytes),
    num_out := toUint32 (intToSize bits st.len / pcm_sample_bytes) }

/-- One pass of `sdl_audio_callback` from the label `start:` to the end of the
loop body, on the path that reaches the four updates. `bits` is the width of
`size_t`, at least 32. -/
def transfer_step (bits : Nat) (cvt_needed : Bool) (convert : pcm_udata → pcm_udata)
    (pcm_sample_bytes : Nat) (st : CallbackState) : CallbackState :=
  let u1 := write_to_soundcard cvt_needed convert (load_counts bits pcm_sample_bytes st)
  -- udata->num_in *= pcm_sample_bytes; udata->num_out *= pcm_sample_bytes;
  let u2 : pcm_udata :=
    { num_in := toUint32 (toSize bits (u1.num_in * pcm_sample_bytes)),
      num_out := toUint32 (toSize bits (u1.num_out * pcm_sample_bytes)) }
  -- pcm_data_size -= udata->num_in; len -= udata->num_out;
  { pcm_data_size := toSize bits (st.pcm_data_size + 2 ^ bits - u2.num_in),
    len := toInt32 (intToSize 32 st.len + 2 ^ 32 - u2.num_out),
    udata := u2 }

/-! ## Block-level model of the allocator

The header declares the cell and the context; the bodies of initialise,
allocate, free, shrink, pin and the compactor are not part of it. They are
modelled here from the design description, on an arena that is the list of its
blocks in ascending address order and a handle table that is the list of its
slots in ascending handle order (slot `h - 1` of the list is handle `h`). All
lengths and addresses are in cells; addresses are offsets from `buf_start`. -/

/-- Modelled from the spec: the callback-set an owner supplies with a
relocatable allocation. `move` says whether a move hook is present (the hook
only lets the owner fix its cached pointers and must not fail); `shrink` is the
shrink hook, from the requested payload size to the granted one. -/
structure buflib_callbacks where
  move : Bool
  shrink : Option (Nat → Nat)

/-- Modelled from the spec: a block of the arena. A free block has only a
length; an allocated block has its length (header included), the handle of its
owning slot, an optional callback-set and a pin counter. -/
inductive Block
  | free (len : Nat)
  | live (len handle : Nat) (ops : Option buflib_callbacks) (pincount : Nat)

/-- The length of a block in cells, header included. -/
def Block.len : Block → Nat
  | .free n => n
  | .live n _ _ _ => n

/-- The handle that owns a block, if it is allocated. -/
def Block.owner : Block → Option Nat
  | .free _ => none
  | .live _ h _ _ => some h

/-- The cells of a block counted as live: its length if allocated. -/
def Block.liveLen : Block → Nat
  | .free _ => 0
  | .live n _ _ _ => n

/-- The cells of a block counted as free: its length if free. -/
def Block.freeLen : Block → Nat
  | .free n => n
  | .live _ _ _ _ => 0

/-- An allocated block is long enough for its header of four cells. -/
def Block.headerOk : Block → Prop
  | .free _ => True
  | .live n _ _ _ => 4 ≤ n

/-- Sum of the sizes of the live blocks. -/
def liveCells (blocks : List Block) : Nat := (blocks.map Block.liveLen).sum

/-- Sum of the sizes of the free blocks. -/
def freeCells (blocks : List Block) : Nat := (blocks.map Block.freeLen).sum

/-- The cells a run of blocks covers. -/
def arenaCells (blocks : List Block) : Nat := (blocks.map Block.len).sum

/-- Modelled from the spec: the error taxonomy of the allocator. -/
inductive PoolError
  | OutOfMemory
  | InvalidHandle
  | ReentrancyViolation
  | CallbackContractViolation
deriving DecidableEq

/-- Modelled from the spec: one allocator context. `size` is the buffer length
in cells, `cell` the cell width in bytes, `minSplit` the minimum split
threshold, `blocks` the arena from the low end upward, `table` the handle table
(a slot holds the payload address of its block, or nothing when free) and
`compact` the compaction-in-progress flag. -/
structure Pool where
  size : Nat
  cell : Nat
  minSplit : Nat
  blocks : List Block
  table : List (Option Nat)
  compact : Bool

/-- The content of the slot of handle `h`: nothing for handle 0, a handle
beyond the table, or a free slot. -/
def slotRead (table : List (Option Nat)) (h : Nat) : Option Nat :=
  if h = 0 then none else (table.get? (h - 1)).join

/-- Write the slot of handle `h`. -/
def slotWrite (table : List (Option Nat)) (h : Nat) (v : Option Nat) : List (Option Nat) :=
  if h = 0 then table else table.set (h - 1) v

/-- Put `n` free cells in front of a run of blocks, merged with a free block
that follows. -/
def pushFree (n : Nat) (rest : List Block) : List Block :=
  if n = 0 then rest
  else
    match rest with
    | .free m :: t => .free (n + m) :: t
    | _ => .free n :: rest

/-- Modelled from the spec: initialisation over a buffer of `size` cells: the
whole buffer is one free block and the handle table is empty. -/
def Pool.init (cell minSplit size : Nat) : Pool :=
  { size := size, cell := cell, minSplit := minSplit,
    blocks := pushFree size [], table := [], compact := false }

/-- What a compaction pass leaves: the arena, the handle table, and whether a
shrink hook broke its contract (a fatal error, at which the pass stops). -/
structure CompactResult where
  blocks : List Block
  table : List (Option Nat)
  fatal : Bool

/-- Put the free run `gap` and then block `b` in front of the arena of a result. -/
def CompactResult.place (gap : Nat) (b : Block) (r : CompactResult) : CompactResult :=
  { r with blocks := pushFree gap (b :: r.blocks) }

/-- Modelled from the spec: the compactor, one pass over the blocks from the
lowest address upward. `addr` is the address of the block at the scan point
before the pass and `gap` the free cells gathered right below the scan point,
so the block at the scan point can slide down to `addr - gap`. The pass stops
once the gathered free run satisfies the request `needed`, or at the end of the
arena. A free block joins the run. An allocated block with a callback-set and
pin count zero is slid down over the run when it has a move hook and the run is
not empty (its slot is rewritten to the new payload address and the run is left
behind it); otherwise, when it has a shrink hook, the hook is asked for its
payload size and the block is truncated to the size granted, the cells given up
starting a new run. A block that is pinned or has no callback-set is skipped:
the run gathered so far stays below it as a free block. -/
def compactWalk (needed : Nat) :
    Nat → Nat → List Block → List (Option Nat) → CompactResult
  | _, gap, [], table => ⟨pushFree gap [], table, false⟩
  | addr, gap, b :: rest, table =>
    if needed ≤ gap then ⟨pushFree gap (b :: rest), table, false⟩
    else
      match b with
      | .free n => compactWalk needed (addr + n) (gap + n) rest table
      | .live len h ops pin =>
        match (if pin = 0 then ops else none) with
        | none => (compactWalk needed (addr + len) 0 rest table).place gap b
        | some cb =>
          if cb.move = true ∧ 0 < gap then
            (compactWalk needed (addr + len) gap rest
              (slotWrite table h (some (addr - gap + 4)))).place 0 b
          else
            match cb.shrink with
            | none => (compactWalk needed (addr + len) 0 rest table).place gap b
            | some f =>
              if len - 4 < f (len - 4) then ⟨pushFree gap (b :: rest), table, true⟩
              else
                (compactWalk needed (addr + len) (len - 4 - f (len - 4)) rest table).place gap
                  (.live (f (len - 4) + 4) h ops pin)

/-- Modelled from the spec: a compaction pass on a context, for a pending
request of `needed` cells. The in-progress flag is set during the pass and
restored after it. -/
def Pool.compactPass (p : Pool) (needed : Nat) : Pool × Except PoolError Unit :=
  let r := compactWalk needed 0 0 p.blocks p.table
  ({ p with blocks := r.blocks, table := r.table },
    if r.fatal then .error .CallbackContractViolation else .ok ())

/-- Some free block has at least `need` cells. -/
def fits (need : Nat) : List Block → Bool
  | [] => false
  | .free n :: rest => decide (need ≤ n) || fits need rest
  | .live _ _ _ _ :: rest => fits need rest

/-- Modelled from the spec: first-fit placement. The first free block, from
the low end, with at least `need` cells receives the new block; it is split,
the remainder staying free, when it is larger than needed by more than the
split threshold, and is taken whole otherwise. Gives the new arena and the
address of the new block. -/
def placeBlock (minSplit need h : Nat) (ops : Option buflib_callbacks) :
    Nat → List Block → Option (List Block × Nat)
  | _, [] => none
  | off, .free n :: rest =>
    if need ≤ n then
      if minSplit < n - need then
        some (.live need h ops 0 :: .free (n - need) :: rest, off)
      else some (.live n h ops 0 :: rest, off)
    else (placeBlock minSplit need h ops (off + n) rest).map fun r => (.free n :: r.1, r.2)
  | off, .live n h' o c :: rest =>
    (placeBlock minSplit need h ops (off + n) rest).map fun r => (.live n h' o c :: r.1, r.2)

/-- The position of the first free slot of the table. -/
def firstFreeSlot : List (Option Nat) → Option Nat
  | [] => none
  | none :: _ => some 0
  | some _ :: rest => (firstFreeSlot rest).map (· + 1)

/-- Take one cell from the top of the arena, which must end in a free block. -/
def takeTopCell : List Block → Option (List Block)
  | [] => none
  | [.free n] => if n = 0 then none else some (pushFree (n - 1) [])
  | [.live _ _ _ _] => none
  | b :: c :: rest => (takeTopCell (c :: rest)).map (b :: ·)

/-- Give `k` cells to the top of the arena, merged with a free block that ends it. -/
def giveTopCells (k : Nat) : List Block → List Block
  | [] => pushFree k []
  | [.free n] => pushFree (n + k) []
  | [.live n h o c] => .live n h o c :: pushFree k []
  | b :: c :: rest => b :: giveTopCells k (c :: rest)

/-- The table without the free slots at its boundary (its highest handles). -/
def trimTable (table : List (Option Nat)) : List (Option Nat) :=
  table.rdropWhile fun s => s.isNone

/-- Retreat the table boundary over the free slots that end the table and hand
their cells to the arena. -/
def Pool.retreat (p : Pool) : Pool :=
  { p with
    table := trimTable p.table,
    blocks := giveTopCells (p.table.length - (trimTable p.table).length) p.blocks }

/-- Modelled from the spec: obtain a handle slot, from the free slots of the
table if there is one, else by extending the table by one slot, whose cell
comes from the top of the free space of the arena. Gives the context and the
handle. -/
def Pool.takeSlot (p : Pool) : Option (Pool × Nat) :=
  match firstFreeSlot p.table with
  | some i => some (p, i + 1)
  | none =>
    match takeTopCell p.blocks with
    | none => none
    | some blocks => some ({ p with blocks := blocks, table := p.table ++ [none] },
        p.table.length + 1)

/-- Modelled from the spec: what Allocate does when it looks for space for a
block of `need` cells. When no free block suffices, the table boundary is
retreated if the slot at the boundary is free, and the compactor runs
otherwise. -/
def Pool.makeRoom (p : Pool) (need : Nat) : Pool × Except PoolError Unit :=
  if fits need p.blocks then (p, .ok ())
  else if p.table.getLast? = some none then (p.retreat, .ok ())
  else p.compactPass need

/-- Modelled from the spec: the second half of Allocate. A request that does
not fit fails with OutOfMemory; otherwise a handle slot is obtained, the block
is placed first-fit with pin count zero, and the slot receives the payload
address of the block. -/
def Pool.placeNew (p1 : Pool) (need : Nat) (ops : Option buflib_callbacks) :
    Pool × Except PoolError Nat :=
  if fits need p1.blocks then
    match p1.takeSlot with
    | none => (p1, .error .OutOfMemory)
    | some (p2, h) =>
      match placeBlock p1.minSplit need h ops 0 p2.blocks with
      | none => (p1, .error .OutOfMemory)
      | some (blocks, off) =>
        ({ p2 with blocks := blocks, table := slotWrite p2.table h (some (off + 4)) }, .ok h)
  else (p1, .error .OutOfMemory)

/-- Modelled from the spec: Allocate. The request is rounded up to cells and
the header added; room is made, and the block is placed. -/
def Pool.allocate (p : Pool) (size : Nat) (ops : Option buflib_callbacks) :
    Pool × Except PoolError Nat :=
  if p.compact then (p, .error .ReentrancyViolation)
  else
    match p.makeRoom (blockCells p.cell size) with
    | (p1, .error e) => (p1, .error e)
    | (p1, .ok _) => p1.placeNew (blockCells p.cell size) ops

/-- Mark the allocated block that starts at offset `off` free and merge it
with a free block right before it and right after it. -/
def freeAt : Nat → List Block → List Block
  | _, [] => []
  | off, .live len h ops pin :: rest =>
    if off = 0 then pushFree len rest
    else if off < len then .live len h ops pin :: rest
    else .live len h ops pin :: freeAt (off - len) rest
  | off, .free n :: rest =>
    if off = 0 ∨ off < n then .free n :: rest
    else if off = n then pushFree n (freeAt 0 rest)
    else .free n :: freeAt (off - n) rest

/-- Replace the block that starts at offset `off`, and the blocks after it, by
what `f` makes of them. -/
def updateAt (f : Block → List Block → List Block) : Nat → List Block → List Block
  | _, [] => []
  | off, b :: rest =>
    if off = 0 then f b rest
    else if off < b.len then b :: rest
    else b :: updateAt f (off - b.len) rest

/-- Modelled from the spec: Free. The block of the handle is marked free and
merged with its free neighbours; the slot is released, and the table boundary
retreats over the free slots that end the table. A handle that is out of range
or already free is InvalidHandle and changes nothing. -/
def Pool.free (p : Pool) (h : Nat) : Pool × Except PoolError Unit :=
  if p.compact then (p, .error .ReentrancyViolation)
  else
    match slotRead p.table h with
    | none => (p, .error .InvalidHandle)
    | some a =>
      (Pool.retreat { p with blocks := freeAt (a - 4) p.blocks,
                             table := slotWrite p.table h none }, .ok ())

/-- Truncate an allocated block to `newLen` cells when that is not longer than
the block; the cells given up become a free block merged with a free block
that follows. -/
def truncateTo (newLen : Nat) (b : Block) (rest : List Block) : List Block :=
  match b with
  | .live len h ops pin =>
    if newLen ≤ len then .live newLen h ops pin :: pushFree (len - newLen) rest
    else b :: rest
  | .free _ => b :: rest

/-- Modelled from the spec: Shrink, in place and only to a size that is not
larger than the current one. -/
def Pool.shrink (p : Pool) (h new_size : Nat) : Pool × Except PoolError Unit :=
  if p.compact then (p, .error .ReentrancyViolation)
  else
    match slotRead p.table h with
    | none => (p, .error .InvalidHandle)
    | some a =>
      ({ p with blocks := updateAt (truncateTo (blockCells p.cell new_size)) (a - 4) p.blocks },
        .ok ())

/-- Apply `g` to the pin counter of an allocated block. -/
def repin (g : Nat → Nat) (b : Block) (rest : List Block) : List Block :=
  match b with
  | .live len h ops pin => .live len h ops (g pin) :: rest
  | .free _ => b :: rest

/-- Modelled from the spec: Pin increments the pin counter of the block. -/
def Pool.pin (p : Pool) (h : Nat) : Pool × Except PoolError Unit :=
  match slotRead p.table h with
  | none => (p, .error .InvalidHandle)
  | some a => ({ p with blocks := updateAt (repin (· + 1)) (a - 4) p.blocks }, .ok ())

/-- Modelled from the spec: Unpin decrements the pin counter of the block. -/
def Pool.unpin (p : Pool) (h : Nat) : Pool × Except PoolError Unit :=
  match slotRead p.table h with
  | none => (p, .error .InvalidHandle)
  | some a => ({ p with blocks := updateAt (repin (· - 1)) (a - 4) p.blocks }, .ok ())

/-- An allocator operation with its arguments. -/
inductive PoolOp
  | allocate (size : Nat) (ops : Option buflib_callbacks)
  | free (h : Nat)
  | shrink (h new_size : Nat)
  | compact (needed : Nat)
  | pin (h : Nat)
  | unpin (h : Nat)

/-- The context an operation leaves, whether it succeeds or reports an error. -/
def PoolOp.apply (op : PoolOp) (p : Pool) : Pool :=
  match op with
  | .allocate size ops => (p.allocate size ops).1
  | .free h => (p.free h).1
  | .shrink h new_size => (p.shrink h new_size).1
  | .compact needed => (p.compactPass needed).1
  | .pin h => (p.pin h).1
  | .unpin h => (p.unpin h).1

/-- The context after a sequence of operations, first to last. -/
def runOps (ops : List PoolOp) (p : Pool) : Pool :=
  ops.foldl (fun q op => op.apply q) p

/-- The context of the header for a pool whose buffer starts at cell `base`:
the handle table ends where the buffer ends and the arena fills the rest. -/
def Pool.toContext (p : Pool) (base : Nat) : buflib_context :=
  { handle_table := (base + p.size : Nat),
    first_free_handle := (base + p.size : Nat) - 1,
    last_handle := ((base + p.size : Nat) : Int) - p.table.length,
    buf_start := base,
    alloc_end := ((base + p.size : Nat) : Int) - p.table.length,
    compact := p.compact }

/-- The cells of the handle table of a pool as they lie in memory: the slot of
handle `h` is the cell `h` below the end of the buffer and holds the address of
the payload, or the null word when free. Cells outside the table read as 0. -/
def Pool.toMemory (p : Pool) (base : Nat) : Memory := fun a =>
  match slotRead p.table (((base + p.size : Nat) : Int) - a).toNat with
  | some off => ⟨base + off⟩
  | none => ⟨0⟩

/-- A callback-set with a move hook only. -/
def movable : buflib_callbacks := { move := true, shrink := none }

/-- A callback-set with a shrink hook only, which gives up half of the payload. -/
def shrinkable : buflib_callbacks := { move := false, shrink := some fun n => n / 2 }

/-- A pool of 64 cells with a hole at the bottom, a pinned movable block above
it, then a shrinkable block, a movable block and the free top; four slots. -/
def poolEx : Pool :=
  { size := 64, cell := 4, minSplit := 1,
    blocks := [.free 8, .live 8 2 (some movable) 1, .live 8 3 (some shrinkable) 0,
      .live 6 4 (some movable) 0, .free 30],
    table := [none, some 12, some 20, some 28],
    compact := false }

/-- The invariant the operations keep on a buffer of `n` cells: the arena and
the handle table cover the buffer exactly, and every allocated block has its
header. -/
def Pool.sound (n : Nat) (p : Pool) : Prop :=
  p.size = n ∧ arenaCells p.blocks + p.table.length = n ∧ ∀ b ∈ p.blocks, b.headerOk

/-! ## Theorems: handle table and constants -/

theorem CInt.neg_val (h : CInt) (hmin : h.val ≠ -2147483648) : (CInt.neg h).val = -h.val := by
  have hlo := h.lo
  have hhi := h.hi
  show wrapInt32 (-h.val) = -h.val
  unfold wrapInt32
  omega

/-- Negation in 32 bits sends different handles to different indices. -/
theorem CInt.neg_injective (h h' : CInt) (e : (CInt.neg h).val = (CInt.neg h').val) :
    h = h' := by
  have hlo := h.lo
  have hhi := h.hi
  have hlo' := h'.lo
  have hhi' := h'.hi
  apply CInt.ext
  change wrapInt32 (-h.val) = wrapInt32 (-h'.val) at e
  unfold wrapInt32 at e
  omega

/-- C4. `BUFLIB_ALLOC_OVERHEAD` is four cells: it equals `4 * w` bytes for
every cell width `w`, is a whole number of cells, is the byte length of an
allocated block with an empty payload, and no allocated block is shorter. -/
theorem BUFLIB_ALLOC_OVERHEAD_four_cells (w : Nat) :
    BUFLIB_ALLOC_OVERHEAD w = 4 * w ∧
    BUFLIB_ALLOC_OVERHEAD w % w = 0 ∧
    BUFLIB_ALLOC_OVERHEAD w = blockCells w 0 * w ∧
    ∀ size, BUFLIB_ALLOC_OVERHEAD w ≤ blockCells w size * w := by
  refine ⟨rfl, by simp [BUFLIB_ALLOC_OVERHEAD], ?_, fun size => ?_⟩
  · rcases Nat.eq_zero_or_pos w with h0 | hpos
    · subst h0; simp [BUFLIB_ALLOC_OVERHEAD]
    · have : (w - 1) / w = 0 := Nat.div_eq_of_lt (by omega)
      simp [BUFLIB_ALLOC_OVERHEAD, blockCells, this]
  · unfold BUFLIB_ALLOC_OVERHEAD blockCells
    exact Nat.mul_le_mul_right w (Nat.le_add_right 4 _)

/-- C5. The discharge curve is the linear scale `3400 + 80 * i` millivolts at
`i * 10` percent, for `i` from 0 to 10, and starts at the shutoff voltage. -/
theorem percent_to_volt_discharge_linear :
    (∀ i : Fin 11, (percent_to_volt_discharge.get! 0).get? i.val = some (3400 + 80 * i.val)) ∧
    (percent_to_volt_discharge.get! 0).length = 11 ∧
    (percent_to_volt_discharge.get! 0).get? 0 = battery_level_shutoff.get? 0 ∧
    (percent_to_volt_discharge.get! 0).get? 10 = some 4200 := by
  refine ⟨by decide, by decide, by decide, by decide⟩

/-! ## Theorems: playback lock -/

theorem runCalls_snoc (l : List PcmCall) (c : PcmCall) (s : LockState) :
    runCalls (l ++ [c]) s = c.step (runCalls l s) := by
  simp [runCalls, List.foldl_append]

/-- After a sequence in which no prefix has more unlocks than locks, the
counter is the number of locks minus the number of unlocks, and the mutex is
held once exactly when the counter is positive. -/
theorem runCalls_invariant (calls : List PcmCall)
    (hbal : ∀ p ∈ calls.inits, p.count PcmCall.unlock ≤ p.count PcmCall.lock) :
    (runCalls calls lockInit).audio_locked
        = (calls.count PcmCall.lock : Int) - calls.count PcmCall.unlock ∧
    (runCalls calls lockInit).mutex_depth
        = (if 0 < (runCalls calls lockInit).audio_locked then 1 else 0) := by
  induction calls using List.reverseRecOn with
  | nil => simp [runCalls, lockInit]
  | append_singleton l c ih =>
    have hl : ∀ p ∈ l.inits, p.count PcmCall.unlock ≤ p.count PcmCall.lock := by
      intro p hp
      apply hbal
      rw [List.mem_inits] at hp ⊢
      exact hp.trans (List.prefix_append l [c])
    have hfull := hbal (l ++ [c]) (by rw [List.mem_inits])
    obtain ⟨hcnt, hdepth⟩ := ih hl
    rw [runCalls_snoc]
    have hle := hl l (by rw [List.mem_inits])
    generalize runCalls l lockInit = s at hcnt hdepth
    obtain ⟨a, d, acq, rel⟩ := s
    simp only at hcnt hdepth
    cases c with
    | lock =>
      have hc1 : (l ++ [PcmCall.lock]).count PcmCall.lock = l.count PcmCall.lock + 1 := by
        simp [List.count_append]
      have hc2 : (l ++ [PcmCall.lock]).count PcmCall.unlock = l.count PcmCall.unlock := by
        simp [List.count_append]
      rw [hc1, hc2]
      by_cases h0 : a + 1 = 1
      · have ha0 : a = 0 := by omega
        subst ha0
        simp [PcmCall.step, pcm_play_lock, SDL_LockMutex] at hdepth ⊢
        omega
      · have hpos : 0 < a := by omega
        have hpos1 : 0 < a + 1 := by omega
        simp [PcmCall.step, pcm_play_lock, h0, hpos, hpos1] at hdepth ⊢
        omega
    | unlock =>
      have hc1 : (l ++ [PcmCall.unlock]).count PcmCall.lock = l.count PcmCall.lock := by
        simp [List.count_append]
      have hc2 : (l ++ [PcmCall.unlock]).count PcmCall.unlock
          = l.count PcmCall.unlock + 1 := by
        simp [List.count_append]
      rw [hc1, hc2] at hfull ⊢
      have hpos : 0 < a := by omega
      by_cases h0 : a - 1 = 0
      · simp [PcmCall.step, pcm_play_unlock, SDL_UnlockMutex, h0, hpos] at hdepth ⊢
        omega
      · have hpos1 : 0 < a - 1 := by omega
        simp [PcmCall.step, pcm_play_unlock, h0, hpos, hpos1] at hdepth ⊢
        omega

theorem runCalls_append (l₁ l₂ : List PcmCall) (s : LockState) :
    runCalls (l₁ ++ l₂) s = runCalls l₂ (runCalls l₁ s) := by
  simp [runCalls, List.foldl_append]

/-- The state after `n` nested locks from the start. -/
theorem runCalls_locks (n : Nat) :
    runCalls (List.replicate n PcmCall.lock) lockInit
      = { audio_locked := n, mutex_depth := if n = 0 then 0 else 1,
          acquired := if n = 0 then 0 else 1, released := 0 } := by
  induction n with
  | zero => simp [runCalls, lockInit]
  | succ k ih =>
    rw [List.replicate_succ', runCalls_snoc, ih]
    by_cases hk : k = 0
    · subst hk; simp [PcmCall.step, pcm_play_lock, SDL_LockMutex]
    · have h1 : (k : Int) + 1 ≠ 1 := by omega
      simp [PcmCall.step, pcm_play_lock, hk, h1]

/-- Unlocking `j` times at nesting depth `k + j + 1` leaves the mutex held. -/
theorem runCalls_unlocks_above (j k acq rel : Nat) :
    runCalls (List.replicate j PcmCall.unlock)
        { audio_locked := ((k + j + 1 : Nat) : Int), mutex_depth := 1,
          acquired := acq, released := rel }
      = { audio_locked := ((k + 1 : Nat) : Int), mutex_depth := 1,
          acquired := acq, released := rel } := by
  induction j generalizing k with
  | zero => simp [runCalls]
  | succ i ih =>
    rw [List.replicate_succ', runCalls_snoc]
    have := ih (k + 1)
    rw [show k + 1 + i + 1 = k + (i + 1) + 1 by omega] at this
    rw [this]
    have h1 : ((k + 1 + 1 : Nat) : Int) - 1 ≠ 0 := by push_cast; omega
    simp only [PcmCall.step, pcm_play_unlock, h1, if_false]
    congr 1
    push_cast; omega

/-- C8. Playback locking nests by counter. After every call sequence from the
initial state in which no prefix has more unlocks than locks, the mutex is held
exactly when `audio_locked > 0`, and the counter lies between 0 and the number
of calls made (so it stays in the range of `int` for fewer than `2^31` calls);
`pcm_play_lock` calls `SDL_LockMutex` exactly
when the counter goes from 0 to 1 and `pcm_play_unlock` calls `SDL_UnlockMutex`
exactly when it goes from 1 to 0; `n` nested locks followed by `n` unlocks
return to the initial counter and mutex state with one acquire and one release
(none when `n = 0`), as does the lock/unlock pair of `pcm_dma_apply_settings`. -/
theorem pcm_play_lock_nests :
    (∀ calls : List PcmCall,
      (∀ p ∈ calls.inits, p.count PcmCall.unlock ≤ p.count PcmCall.lock) →
      (0 < (runCalls calls lockInit).mutex_depth ↔ 0 < (runCalls calls lockInit).audio_locked) ∧
      0 ≤ (runCalls calls lockInit).audio_locked ∧
      (runCalls calls lockInit).audio_locked ≤ calls.length) ∧
    (∀ s : LockState,
      (pcm_play_lock s).acquired = s.acquired + (if s.audio_locked = 0 then 1 else 0) ∧
      (pcm_play_lock s).released = s.released) ∧
    (∀ s : LockState,
      (pcm_play_unlock s).released = s.released + (if s.audio_locked = 1 then 1 else 0) ∧
      (pcm_play_unlock s).acquired = s.acquired) ∧
    (∀ n : Nat,
      runCalls (List.replicate n PcmCall.lock ++ List.replicate n PcmCall.unlock) lockInit
        = { audio_locked := 0, mutex_depth := 0,
            acquired := if n = 0 then 0 else 1, released := if n = 0 then 0 else 1 }) ∧
    pcm_dma_apply_settings lockInit
      = { audio_locked := 0, mutex_depth := 0, acquired := 1, released := 1 } := by
  refine ⟨?_, ?_, ?_, ?_, by decide⟩
  · intro calls hbal
    obtain ⟨hcnt, hdepth⟩ := runCalls_invariant calls hbal
    have hfull := hbal calls (by rw [List.mem_inits])
    have hlen : calls.count PcmCall.lock ≤ calls.length :=
      List.count_le_length _ _
    refine ⟨?_, by omega, by omega⟩
    rw [hdepth]
    split_ifs with h <;> simp [h]
  · intro s
    by_cases h : s.audio_locked = 0
    · simp [pcm_play_lock, SDL_LockMutex, h]
    · have h1 : s.audio_locked + 1 ≠ 1 := by omega
      simp [pcm_play_lock, h, h1]
  · intro s
    by_cases h : s.audio_locked = 1
    · simp [pcm_play_unlock, SDL_UnlockMutex, h]
    · have h1 : s.audio_locked - 1 ≠ 0 := by omega
      simp [pcm_play_unlock, h, h1]
  · intro n
    rw [runCalls_append, runCalls_locks]
    cases n with
    | zero => simp [runCalls]
    | succ k =>
      simp only [Nat.succ_ne_zero, if_false]
      rw [List.replicate_succ', runCalls_append]
      have := runCalls_unlocks_above k 0 1 0
      rw [show 0 + k + 1 = k + 1 by omega] at this
      rw [this]
      simp [runCalls, PcmCall.step, pcm_play_unlock, SDL_UnlockMutex]

/-! ## Theorems: audio callback transfer step -/

theorem intToSize_of_nat (bits n : Nat) (h : n < 2 ^ bits) : intToSize bits (n : Int) = n := by
  unfold intToSize
  have : ((n : Int) % (2 : Int) ^ bits) = ((n % 2 ^ bits : Nat) : Int) := by
    push_cast; rfl
  rw [this, Nat.mod_eq_of_lt h]
  simp

/-- C9, as the code behaves: with a 64-bit `size_t`, `pcm_data_size = 2^32`,
one-byte samples and `len = 4`, the sample count stored in the `Uint32`
`num_in` wraps to 0, so `write_to_soundcard` leaves `num_in = num_out = 0`
and not `min (2^32 / 1) (4 / 1) = 4`. -/
theorem write_to_soundcard_count_wraps :
    (write_to_soundcard false id
        (load_counts 64 1 { pcm_data_size := 2 ^ 32, len := 4, udata := ⟨0, 0⟩ })).num_in = 0 ∧
    (write_to_soundcard false id
        (load_counts 64 1 { pcm_data_size := 2 ^ 32, len := 4, udata := ⟨0, 0⟩ })).num_in
      ≠ min (2 ^ 32 / 1) (4 / 1) := by
  constructor <;> decide

/-- C9 amended. Without format conversion, for every `pcm_data_size`, every
`len` with `0 ≤ len` and every `pcm_sample_bytes > 0`, `write_to_soundcard`
sets `num_in = num_out = min ((pcm_data_size / pcm_sample_bytes) mod 2^32)
(len / pcm_sample_bytes)`, which is the minimum of the two quotients whenever
the first fits 32 bits. The bytes consumed equal the bytes written, are a whole
number of samples and at most `min pcm_data_size len`, and the two updates
subtract them without wrapping below zero. -/
theorem transfer_step_no_overrun (bits sb : Nat) (convert : pcm_udata → pcm_udata)
    (st : CallbackState) (hbits : 32 ≤ bits) (hsize : st.pcm_data_size < 2 ^ bits)
    (_hsb : 0 < sb) (hlen0 : 0 ≤ st.len) (hlen : st.len < 2 ^ 31) :
    (write_to_soundcard false convert (load_counts bits sb st)).num_in
      = min ((st.pcm_data_size / sb) % 2 ^ 32) (st.len.toNat / sb) ∧
    (write_to_soundcard false convert (load_counts bits sb st)).num_out
      = (write_to_soundcard false convert (load_counts bits sb st)).num_in ∧
    (st.pcm_data_size / sb < 2 ^ 32 →
      (write_to_soundcard false convert (load_counts bits sb st)).num_in
        = min (st.pcm_data_size / sb) (st.len.toNat / sb)) ∧
    (transfer_step bits false convert sb st).udata.num_in
      = (write_to_soundcard false convert (load_counts bits sb st)).num_in * sb ∧
    (transfer_step bits false convert sb st).udata.num_out
      = (transfer_step bits false convert sb st).udata.num_in ∧
    (transfer_step bits false convert sb st).udata.num_in
      ≤ min st.pcm_data_size st.len.toNat ∧
    (transfer_step bits false convert sb st).pcm_data_size
      + (transfer_step bits false convert sb st).udata.num_in = st.pcm_data_size ∧
    (transfer_step bits false convert sb st).len
      + (transfer_step bits false convert sb st).udata.num_out = st.len ∧
    0 ≤ (transfer_step bits false convert sb st).len := by
  obtain ⟨size, len, u⟩ := st
  simp only at hsize hlen0 hlen
  lift len to ℕ using hlen0 with n
  have hn : n < 2 ^ 31 := by exact_mod_cast hlen
  have h3132 : (2 : Nat) ^ 31 < 2 ^ 32 := by norm_num
  have h32b : (2 : Nat) ^ 32 ≤ 2 ^ bits := Nat.pow_le_pow_right (by norm_num) hbits
  have hnb : n < 2 ^ bits := by omega
  have hq2 : n / sb < 2 ^ 32 := lt_of_le_of_lt (Nat.div_le_self n sb) (by omega)
  have hm2 : min ((size / sb) % 2 ^ 32) (n / sb) * sb ≤ n :=
    le_trans (Nat.mul_le_mul_right sb (min_le_right _ _)) (Nat.div_mul_le_self n sb)
  have hm1 : min ((size / sb) % 2 ^ 32) (n / sb) * sb ≤ size :=
    le_trans (Nat.mul_le_mul_right sb
      (le_trans (min_le_left _ _) (Nat.mod_le _ _))) (Nat.div_mul_le_self size sb)
  have hw : write_to_soundcard false convert (load_counts bits sb ⟨size, (n : Int), u⟩)
      = ⟨min ((size / sb) % 2 ^ 32) (n / sb), min ((size / sb) % 2 ^ 32) (n / sb)⟩ := by
    unfold write_to_soundcard load_counts toUint32
    simp only [intToSize_of_nat bits n hnb]
    rw [Nat.mod_eq_of_lt hq2]
    rfl
  generalize hB : min ((size / sb) % 2 ^ 32) (n / sb) * sb = B at hm1 hm2
  have hbytes : toUint32 (toSize bits B) = B := by
    unfold toUint32 toSize
    have h1 : B % 2 ^ bits = B := Nat.mod_eq_of_lt (by omega)
    rw [h1]
    exact Nat.mod_eq_of_lt (by omega)
  have hstep : transfer_step bits false convert sb ⟨size, (n : Int), u⟩
      = ⟨size - B, ((n - B : Nat) : Int), ⟨B, B⟩⟩ := by
    unfold transfer_step
    simp only [hw, hB, hbytes]
    congr 1
    · unfold toSize
      rw [show size + 2 ^ bits - B = (size - B) + 2 ^ bits by omega, Nat.add_mod_right]
      exact Nat.mod_eq_of_lt (by omega)
    · unfold toInt32
      rw [intToSize_of_nat 32 n (by omega),
        show n + 2 ^ 32 - B = (n - B) + 2 ^ 32 by omega, Nat.add_mod_right]
      have h2 : (n - B) % 2 ^ 32 = n - B := Nat.mod_eq_of_lt (by omega)
      rw [h2, if_pos (by omega)]
  rw [hstep, hw]
  refine ⟨?_, ?_, ?_, ?_, ?_, ?_, ?_, ?_, ?_⟩
  · simp
  · rfl
  · intro hq1
    show min ((size / sb) % 2 ^ 32) (n / sb) = min (size / sb) ((n : Int).toNat / sb)
    rw [Nat.mod_eq_of_lt hq1, Int.toNat_ofNat]
  · exact hB.symm
  · rfl
  · simpa using And.intro hm1 hm2
  · show size - B + B = size
    omega
  · show ((n - B : Nat) : Int) + (B : Int) = (n : Int)
    push_cast [Nat.cast_sub hm2]
    omega
  · show (0 : Int) ≤ ((n - B : Nat) : Int)
    omega

/-- C9 amended, at a 64-bit `size_t` with 10 bytes of PCM data, 4-byte samples
and a 7-byte request: one sample (4 bytes) is transferred. -/
theorem transfer_step_no_overrun_witness :
    (transfer_step 64 false id 4 { pcm_data_size := 10, len := 7, udata := ⟨0, 0⟩ }).udata.num_in
      ≤ min 10 (7 : Int).toNat ∧
    (transfer_step 64 false id 4 { pcm_data_size := 10, len := 7, udata := ⟨0, 0⟩ })
      = { pcm_data_size := 6, len := 3, udata := ⟨4, 4⟩ } :=
  ⟨(transfer_step_no_overrun 64 4 id { pcm_data_size := 10, len := 7, udata := ⟨0, 0⟩ }
      (by decide) (by decide) (by decide) (by decide) (by decide)).2.2.2.2.2.1,
    by decide⟩

/-! ## Theorems: allocator model -/

theorem arenaCells_nil : arenaCells [] = 0 := rfl

theorem arenaCells_cons (b : Block) (l : List Block) :
    arenaCells (b :: l) = b.len + arenaCells l := by
  simp [arenaCells]

theorem arenaCells_append (l₁ l₂ : List Block) :
    arenaCells (l₁ ++ l₂) = arenaCells l₁ + arenaCells l₂ := by
  simp [arenaCells]

theorem arenaCells_pushFree (n : Nat) (l : List Block) :
    arenaCells (pushFree n l) = n + arenaCells l := by
  unfold pushFree
  split_ifs with h
  · simp [h]
  · split
    · simp only [arenaCells_cons, Block.len]; omega
    · simp only [arenaCells_cons, Block.len]

/-- The arena is made of its live cells and its free cells. -/
theorem arenaCells_eq (l : List Block) : arenaCells l = liveCells l + freeCells l := by
  induction l with
  | nil => rfl
  | cons b t ih =>
    have h1 : liveCells (b :: t) = b.liveLen + liveCells t := by simp [liveCells]
    have h2 : freeCells (b :: t) = b.freeLen + freeCells t := by simp [freeCells]
    rw [arenaCells_cons, h1, h2, ih]
    cases b <;> simp [Block.len, Block.liveLen, Block.freeLen] <;> omega

/-- The function `pushFree` looks at the first block only. -/
theorem pushFree_cons_append (n : Nat) (b : Block) (l₁ l₂ : List Block) :
    pushFree n (b :: (l₁ ++ l₂)) = pushFree n (b :: l₁) ++ l₂ := by
  unfold pushFree
  split_ifs with h
  · rfl
  · cases b <;> simp

/-- Every block of `pushFree n l` is free or a block of `l`. -/
theorem headerOk_pushFree (n : Nat) (l : List Block) (hl : ∀ b ∈ l, b.headerOk) :
    ∀ b ∈ pushFree n l, b.headerOk := by
  unfold pushFree
  split_ifs with h
  · exact hl
  · split
    · intro b hb
      rcases List.mem_cons.mp hb with rfl | hb
      · trivial
      · exact hl b (List.mem_cons_of_mem _ hb)
    · intro b hb
      rcases List.mem_cons.mp hb with rfl | hb
      · trivial
      · exact hl b hb

theorem slotRead_slotWrite_ne (table : List (Option Nat)) (h h' : Nat) (v : Option Nat)
    (hne : h ≠ h') : slotRead (slotWrite table h' v) h = slotRead table h := by
  unfold slotRead slotWrite
  by_cases h0 : h = 0
  · simp [h0]
  · by_cases h0' : h' = 0
    · simp [h0']
    · have : h' - 1 ≠ h - 1 := by omega
      simp [h0, h0', List.getElem?_set_ne this]

theorem slotWrite_length (table : List (Option Nat)) (h : Nat) (v : Option Nat) :
    (slotWrite table h v).length = table.length := by
  unfold slotWrite
  split_ifs <;> simp

theorem compactWalk_stop (needed addr gap : Nat) (b : Block) (rest : List Block)
    (table : List (Option Nat)) (hstop : needed ≤ gap) :
    compactWalk needed addr gap (b :: rest) table
      = ⟨pushFree gap (b :: rest), table, false⟩ := by
  rw [compactWalk.eq_def]; simp only; rw [if_pos hstop]

theorem compactWalk_free (needed addr gap n : Nat) (rest : List Block)
    (table : List (Option Nat)) (hgo : ¬ needed ≤ gap) :
    compactWalk needed addr gap (.free n :: rest) table
      = compactWalk needed (addr + n) (gap + n) rest table := by
  rw [compactWalk.eq_def]; simp only; rw [if_neg hgo]

theorem compactWalk_skip (needed addr gap len h pin : Nat) (ops : Option buflib_callbacks)
    (rest : List Block) (table : List (Option Nat)) (hgo : ¬ needed ≤ gap)
    (hcb : (if pin = 0 then ops else none) = none) :
    compactWalk needed addr gap (.live len h ops pin :: rest) table
      = (compactWalk needed (addr + len) 0 rest table).place gap (.live len h ops pin) := by
  rw [compactWalk.eq_def]; simp only; rw [if_neg hgo, hcb]

theorem compactWalk_move (needed addr gap len h pin : Nat) (ops : Option buflib_callbacks)
    (cb : buflib_callbacks) (rest : List Block) (table : List (Option Nat))
    (hgo : ¬ needed ≤ gap) (hcb : (if pin = 0 then ops else none) = some cb)
    (hmove : cb.move = true ∧ 0 < gap) :
    compactWalk needed addr gap (.live len h ops pin :: rest) table
      = (compactWalk needed (addr + len) gap rest
          (slotWrite table h (some (addr - gap + 4)))).place 0 (.live len h ops pin) := by
  rw [compactWalk.eq_def]; simp only; rw [if_neg hgo, hcb]; simp only; rw [if_pos hmove]

theorem compactWalk_noshrink (needed addr gap len h pin : Nat) (ops : Option buflib_callbacks)
    (cb : buflib_callbacks) (rest : List Block) (table : List (Option Nat))
    (hgo : ¬ needed ≤ gap) (hcb : (if pin = 0 then ops else none) = some cb)
    (hmove : ¬ (cb.move = true ∧ 0 < gap)) (hs : cb.shrink = none) :
    compactWalk needed addr gap (.live len h ops pin :: rest) table
      = (compactWalk needed (addr + len) 0 rest table).place gap (.live len h ops pin) := by
  rw [compactWalk.eq_def]; simp only; rw [if_neg hgo, hcb]; simp only; rw [if_neg hmove, hs]

theorem compactWalk_fatal (needed addr gap len h pin : Nat) (ops : Option buflib_callbacks)
    (cb : buflib_callbacks) (f : Nat → Nat) (rest : List Block) (table : List (Option Nat))
    (hgo : ¬ needed ≤ gap) (hcb : (if pin = 0 then ops else none) = some cb)
    (hmove : ¬ (cb.move = true ∧ 0 < gap)) (hs : cb.shrink = some f)
    (hbad : len - 4 < f (len - 4)) :
    compactWalk needed addr gap (.live len h ops pin :: rest) table
      = ⟨pushFree gap (.live len h ops pin :: rest), table, true⟩ := by
  rw [compactWalk.eq_def]; simp only; rw [if_neg hgo, hcb]; simp only
  rw [if_neg hmove, hs]; simp only; rw [if_pos hbad]

theorem compactWalk_shrink (needed addr gap len h pin : Nat) (ops : Option buflib_callbacks)
    (cb : buflib_callbacks) (f : Nat → Nat) (rest : List Block) (table : List (Option Nat))
    (hgo : ¬ needed ≤ gap) (hcb : (if pin = 0 then ops else none) = some cb)
    (hmove : ¬ (cb.move = true ∧ 0 < gap)) (hs : cb.shrink = some f)
    (hok : ¬ len - 4 < f (len - 4)) :
    compactWalk needed addr gap (.live len h ops pin :: rest) table
      = (compactWalk needed (addr + len) (len - 4 - f (len - 4)) rest table).place gap
          (.live (f (len - 4) + 4) h ops pin) := by
  rw [compactWalk.eq_def]; simp only; rw [if_neg hgo, hcb]; simp only
  rw [if_neg hmove, hs]; simp only; rw [if_neg hok]

/-- What a compaction pass does with an allocated block at the scan point: one
of the five ways of `compactWalk`. -/
theorem compactWalk_live_cases (needed addr gap len h pin : Nat)
    (ops : Option buflib_callbacks) (rest : List Block) (table : List (Option Nat))
    (hgo : ¬ needed ≤ gap) :
    (compactWalk needed addr gap (.live len h ops pin :: rest) table
        = (compactWalk needed (addr + len) 0 rest table).place gap (.live len h ops pin)) ∨
    (pin = 0 ∧ compactWalk needed addr gap (.live len h ops pin :: rest) table
        = (compactWalk needed (addr + len) gap rest
            (slotWrite table h (some (addr - gap + 4)))).place 0 (.live len h ops pin)) ∨
    (compactWalk needed addr gap (.live len h ops pin :: rest) table
        = ⟨pushFree gap (.live len h ops pin :: rest), table, true⟩) ∨
    (∃ g, g ≤ len - 4 ∧ pin = 0 ∧
      compactWalk needed addr gap (.live len h ops pin :: rest) table
        = (compactWalk needed (addr + len) (len - 4 - g) rest table).place gap
            (.live (g + 4) h ops pin)) := by
  cases hcb : (if pin = 0 then ops else none) with
  | none => exact Or.inl (compactWalk_skip _ _ _ _ _ _ _ _ _ hgo hcb)
  | some cb =>
    have hpin : pin = 0 := by
      by_contra hne
      rw [if_neg hne] at hcb
      cases hcb
    by_cases hmove : cb.move = true ∧ 0 < gap
    · exact Or.inr (Or.inl ⟨hpin, compactWalk_move _ _ _ _ _ _ _ cb _ _ hgo hcb hmove⟩)
    · cases hs : cb.shrink with
      | none => exact Or.inl (compactWalk_noshrink _ _ _ _ _ _ _ cb _ _ hgo hcb hmove hs)
      | some f =>
        by_cases hbad : len - 4 < f (len - 4)
        · exact Or.inr (Or.inr (Or.inl
            (compactWalk_fatal _ _ _ _ _ _ _ cb f _ _ hgo hcb hmove hs hbad)))
        · exact Or.inr (Or.inr (Or.inr ⟨f (len - 4), by omega, hpin,
            compactWalk_shrink _ _ _ _ _ _ _ cb f _ _ hgo hcb hmove hs hbad⟩))


/-- A compaction pass writes only the slots of the blocks it walks over. -/
theorem compactWalk_slot_other (needed h : Nat) (blocks : List Block) :
    ∀ (addr gap : Nat) (table : List (Option Nat)),
      (∀ b ∈ blocks, b.owner ≠ some h) →
      slotRead (compactWalk needed addr gap blocks table).table h = slotRead table h := by
  induction blocks with
  | nil => intro addr gap table _; simp [compactWalk]
  | cons b rest ih =>
    intro addr gap table hown
    have hrest : ∀ b ∈ rest, b.owner ≠ some h := fun x hx => hown x (List.mem_cons_of_mem _ hx)
    by_cases hstop : needed ≤ gap
    · rw [compactWalk_stop _ _ _ _ _ _ hstop]
    · cases b with
      | free n => rw [compactWalk_free _ _ _ _ _ _ hstop]; exact ih _ _ _ hrest
      | live len h' ops pin =>
        have hne : h ≠ h' := by
          intro e
          exact hown (.live len h' ops pin) (List.mem_cons_self _ _) (by simp [Block.owner, e])
        rcases compactWalk_live_cases needed addr gap len h' pin ops rest table hstop with
          e | ⟨-, e⟩ | e | ⟨g, -, -, e⟩
        · rw [e]; exact ih _ _ _ hrest
        · rw [e]
          show slotRead (compactWalk _ _ _ rest _).table h = _
          rw [ih _ _ _ hrest, slotRead_slotWrite_ne _ _ _ _ hne]
        · rw [e]
        · rw [e]; exact ih _ _ _ hrest

/-- A compaction pass keeps the cells of the arena: what it leaves covers the
free run it started with and the blocks it walked over. -/
theorem compactWalk_cells (needed : Nat) (blocks : List Block) :
    ∀ (addr gap : Nat) (table : List (Option Nat)),
      (∀ b ∈ blocks, b.headerOk) →
      arenaCells (compactWalk needed addr gap blocks table).blocks = gap + arenaCells blocks := by
  induction blocks with
  | nil => intro addr gap table _; simp [compactWalk, arenaCells_pushFree]
  | cons b rest ih =>
    intro addr gap table hok
    have hrest : ∀ b ∈ rest, b.headerOk := fun x hx => hok x (List.mem_cons_of_mem _ hx)
    by_cases hstop : needed ≤ gap
    · rw [compactWalk_stop _ _ _ _ _ _ hstop, arenaCells_pushFree]
    · cases b with
      | free n =>
        rw [compactWalk_free _ _ _ _ _ _ hstop, ih _ _ _ hrest, arenaCells_cons]
        simp only [Block.len]; omega
      | live len h' ops pin =>
        have h4 : 4 ≤ len := hok (.live len h' ops pin) (List.mem_cons_self _ _)
        rcases compactWalk_live_cases needed addr gap len h' pin ops rest table hstop with
          e | ⟨-, e⟩ | e | ⟨g, hg, -, e⟩
        · rw [e]
          simp only [CompactResult.place, arenaCells_pushFree, arenaCells_cons, ih _ _ _ hrest]
          omega
        · rw [e]
          simp only [CompactResult.place, arenaCells_pushFree, arenaCells_cons, ih _ _ _ hrest]
          omega
        · rw [e, arenaCells_pushFree]
        · rw [e]
          simp only [CompactResult.place, arenaCells_pushFree, arenaCells_cons, ih _ _ _ hrest,
            Block.len]
          omega

/-- A compaction pass keeps every allocated block at least a header long. -/
theorem compactWalk_headerOk (needed : Nat) (blocks : List Block) :
    ∀ (addr gap : Nat) (table : List (Option Nat)),
      (∀ b ∈ blocks, b.headerOk) →
      ∀ b ∈ (compactWalk needed addr gap blocks table).blocks, b.headerOk := by
  induction blocks with
  | nil =>
    intro addr gap table _
    simpa [compactWalk] using headerOk_pushFree gap [] (by simp)
  | cons b rest ih =>
    intro addr gap table hok
    have hrest : ∀ b ∈ rest, b.headerOk := fun x hx => hok x (List.mem_cons_of_mem _ hx)
    have hcons : ∀ (c : Block) (l : List Block), c.headerOk → (∀ x ∈ l, x.headerOk) →
        ∀ x ∈ c :: l, x.headerOk := by
      intro c l hc hl x hx
      rcases List.mem_cons.mp hx with rfl | hx
      · exact hc
      · exact hl x hx
    by_cases hstop : needed ≤ gap
    · rw [compactWalk_stop _ _ _ _ _ _ hstop]
      exact headerOk_pushFree _ _ hok
    · cases b with
      | free n => rw [compactWalk_free _ _ _ _ _ _ hstop]; exact ih _ _ _ hrest
      | live len h' ops pin =>
        have h4 : Block.headerOk (.live len h' ops pin) := hok _ (List.mem_cons_self _ _)
        rcases compactWalk_live_cases needed addr gap len h' pin ops rest table hstop with
          e | ⟨-, e⟩ | e | ⟨g, hg, -, e⟩
        · rw [e]
          exact headerOk_pushFree gap _ (hcons _ _ h4 (ih _ _ _ hrest))
        · rw [e]
          exact headerOk_pushFree 0 _ (hcons _ _ h4 (ih _ _ _ hrest))
        · rw [e]
          exact headerOk_pushFree _ _ hok
        · rw [e]
          have hg4 : Block.headerOk (.live (g + 4) h' ops pin) := show 4 ≤ g + 4 by omega
          exact headerOk_pushFree gap _ (hcons _ _ hg4 (ih _ _ _ hrest))

theorem compactWalk_table_length (needed : Nat) (blocks : List Block) :
    ∀ (addr gap : Nat) (table : List (Option Nat)),
      (compactWalk needed addr gap blocks table).table.length = table.length := by
  induction blocks with
  | nil => intro addr gap table; simp [compactWalk]
  | cons b rest ih =>
    intro addr gap table
    by_cases hstop : needed ≤ gap
    · rw [compactWalk_stop _ _ _ _ _ _ hstop]
    · cases b with
      | free n => rw [compactWalk_free _ _ _ _ _ _ hstop]; exact ih _ _ _
      | live len h' ops pin =>
        rcases compactWalk_live_cases needed addr gap len h' pin ops rest table hstop with
          e | ⟨-, e⟩ | e | ⟨g, -, -, e⟩
        · rw [e]; exact ih _ _ _
        · rw [e]
          show (compactWalk _ _ _ rest _).table.length = _
          rw [ih, slotWrite_length]
        · rw [e]
        · rw [e]; exact ih _ _ _


theorem pushFree_live (n len h pin : Nat) (ops : Option buflib_callbacks) (l : List Block) :
    pushFree n (.live len h ops pin :: l) = pushFree n [] ++ .live len h ops pin :: l := by
  unfold pushFree
  split_ifs with hn
  · rfl
  · rfl

/-- A compaction pass leaves a pinned block where it is: the blocks below it
still cover the same cells, and its slot is not written, when no other block
of the arena is owned by the same handle. -/
theorem compactWalk_pinned (needed len h pin : Nat) (ops : Option buflib_callbacks)
    (post : List Block) (hpin : 0 < pin) (hpost : ∀ b ∈ post, b.owner ≠ some h)
    (pre : List Block) :
    ∀ (addr gap : Nat) (table : List (Option Nat)),
      (∀ b ∈ pre, b.headerOk) → (∀ b ∈ pre, b.owner ≠ some h) →
      (∃ pre' post',
        (compactWalk needed addr gap (pre ++ .live len h ops pin :: post) table).blocks
          = pre' ++ .live len h ops pin :: post' ∧
        arenaCells pre' = gap + arenaCells pre) ∧
      slotRead (compactWalk needed addr gap (pre ++ .live len h ops pin :: post) table).table h
        = slotRead table h := by
  have hpin0 : pin ≠ 0 := by omega
  induction pre with
  | nil =>
    intro addr gap table _ _
    rw [List.nil_append]
    by_cases hstop : needed ≤ gap
    · rw [compactWalk_stop _ _ _ _ _ _ hstop]
      exact ⟨⟨pushFree gap [], post, pushFree_live _ _ _ _ _ _,
        by rw [arenaCells_pushFree]⟩, rfl⟩
    · rcases compactWalk_live_cases needed addr gap len h pin ops post table hstop with
        e | ⟨h0, -⟩ | e | ⟨g, -, h0, -⟩
      · rw [e]
        exact ⟨⟨pushFree gap [], _, pushFree_live _ _ _ _ _ _,
          by rw [arenaCells_pushFree]⟩, compactWalk_slot_other _ _ _ _ _ _ hpost⟩
      · exact absurd h0 hpin0
      · rw [e]
        exact ⟨⟨pushFree gap [], post, pushFree_live _ _ _ _ _ _,
          by rw [arenaCells_pushFree]⟩, rfl⟩
      · exact absurd h0 hpin0
  | cons c pre2 ih =>
    intro addr gap table hok hown
    have hok2 : ∀ b ∈ pre2, b.headerOk := fun x hx => hok x (List.mem_cons_of_mem _ hx)
    have hown2 : ∀ b ∈ pre2, b.owner ≠ some h := fun x hx => hown x (List.mem_cons_of_mem _ hx)
    rw [List.cons_append]
    by_cases hstop : needed ≤ gap
    · rw [compactWalk_stop _ _ _ _ _ _ hstop]
      exact ⟨⟨pushFree gap (c :: pre2), post, pushFree_cons_append _ _ _ _,
        by rw [arenaCells_pushFree]⟩, rfl⟩
    · cases c with
      | free n =>
        rw [compactWalk_free _ _ _ _ _ _ hstop]
        obtain ⟨⟨pre', post', hb, hc⟩, ht⟩ := ih (addr + n) (gap + n) table hok2 hown2
        refine ⟨⟨pre', post', hb, ?_⟩, ht⟩
        rw [hc, arenaCells_cons]
        simp only [Block.len]; omega
      | live len' h' ops' pin' =>
        have h4 : 4 ≤ len' := hok (.live len' h' ops' pin') (List.mem_cons_self _ _)
        have hne : h ≠ h' := by
          intro e
          exact hown (.live len' h' ops' pin') (List.mem_cons_self _ _)
            (by simp [Block.owner, e])
        rcases compactWalk_live_cases needed addr gap len' h' pin' ops'
            (pre2 ++ .live len h ops pin :: post) table hstop with
          e | ⟨-, e⟩ | e | ⟨g, hg, -, e⟩
        · rw [e]
          obtain ⟨⟨pre', post', hb, hc⟩, ht⟩ := ih (addr + len') 0 table hok2 hown2
          refine ⟨⟨pushFree gap (.live len' h' ops' pin' :: pre'), post', ?_, ?_⟩, ht⟩
          · simp only [CompactResult.place]
            rw [hb, pushFree_cons_append]
          · rw [arenaCells_pushFree, arenaCells_cons, arenaCells_cons, hc]
            simp only [Block.len]; omega
        · rw [e]
          obtain ⟨⟨pre', post', hb, hc⟩, ht⟩ :=
            ih (addr + len') gap (slotWrite table h' (some (addr - gap + 4))) hok2 hown2
          refine ⟨⟨pushFree 0 (.live len' h' ops' pin' :: pre'), post', ?_, ?_⟩, ?_⟩
          · simp only [CompactResult.place]
            rw [hb, pushFree_cons_append]
          · rw [arenaCells_pushFree, arenaCells_cons, arenaCells_cons, hc]
            simp only [Block.len]; omega
          · show slotRead (compactWalk _ _ _ _ _).table h = _
            rw [ht, slotRead_slotWrite_ne _ _ _ _ hne]
        · rw [e]
          exact ⟨⟨pushFree gap (.live len' h' ops' pin' :: pre2), post,
            pushFree_cons_append gap (.live len' h' ops' pin') pre2 (.live len h ops pin :: post),
            by rw [arenaCells_pushFree]⟩, rfl⟩
        · rw [e]
          obtain ⟨⟨pre', post', hb, hc⟩, ht⟩ := ih (addr + len') (len' - 4 - g) table hok2 hown2
          refine ⟨⟨pushFree gap (.live (g + 4) h' ops' pin' :: pre'), post', ?_, ?_⟩, ht⟩
          · simp only [CompactResult.place]
            rw [hb, pushFree_cons_append]
          · rw [arenaCells_pushFree, arenaCells_cons, arenaCells_cons, hc]
            simp only [Block.len]; omega

/-- Resolving a handle on the memory image of a pool reads its slot. -/
theorem buflib_get_data_toMemory (p : Pool) (base h : Nat) (hi : CInt)
    (e : hi.val = (h : Int)) :
    buflib_get_data (p.toContext base) (p.toMemory base) hi
      = match slotRead p.table h with
        | some off => base + off
        | none => 0 := by
  have hneg : (CInt.neg hi).val = -(h : Int) := by
    rw [CInt.neg_val hi (by omega), e]
  have hidx : ((((base + p.size : Nat) : Int) - (((base + p.size : Nat) : Int) + -(h : Int)))).toNat
      = h := by
    rw [show (((base + p.size : Nat) : Int) - (((base + p.size : Nat) : Int) + -(h : Int)))
      = (h : Int) by ring]
    exact Int.toNat_ofNat h
  unfold buflib_get_data Pool.toMemory Pool.toContext
  simp only [hneg, hidx]
  cases slotRead p.table h <;> rfl

/-- C6. Pin inviolability. For every compaction pass on an arena whose
allocated blocks all have their header, and every block with pin count above
zero that is the only block owned by its handle: after the pass the same block
(same length, owner and pin count) lies at the same offset, its slot holds what
it held, and its handle, passed as the `int` it is, resolves through
`buflib_get_data` on the handle table to the same address as before. -/
theorem compactPass_keeps_pinned (p : Pool) (needed base : Nat) (pre post : List Block)
    (len h pin : Nat) (ops : Option buflib_callbacks)
    (hblocks : p.blocks = pre ++ .live len h ops pin :: post)
    (hpin : 0 < pin)
    (hhdr : ∀ b ∈ p.blocks, b.headerOk)
    (hown : ∀ b ∈ pre ++ post, b.owner ≠ some h) :
    (∃ pre' post',
      (p.compactPass needed).1.blocks = pre' ++ .live len h ops pin :: post' ∧
      arenaCells pre' = arenaCells pre) ∧
    slotRead (p.compactPass needed).1.table h = slotRead p.table h ∧
    ∀ hi : CInt, hi.val = (h : Int) →
      buflib_get_data ((p.compactPass needed).1.toContext base)
          ((p.compactPass needed).1.toMemory base) hi
        = buflib_get_data (p.toContext base) (p.toMemory base) hi := by
  have hpre : ∀ b ∈ pre, b.headerOk := fun b hb =>
    hhdr b (by rw [hblocks]; exact List.mem_append_left _ hb)
  have hown1 : ∀ b ∈ pre, b.owner ≠ some h := fun b hb => hown b (List.mem_append_left _ hb)
  have hown2 : ∀ b ∈ post, b.owner ≠ some h := fun b hb => hown b (List.mem_append_right _ hb)
  obtain ⟨⟨pre', post', hb, hc⟩, ht⟩ :=
    compactWalk_pinned needed len h pin ops post hpin hown2 pre 0 0 p.table hpre hown1
  have hblk : (p.compactPass needed).1.blocks
      = (compactWalk needed 0 0 (pre ++ .live len h ops pin :: post) p.table).blocks := by
    simp [Pool.compactPass, hblocks]
  have htab : (p.compactPass needed).1.table
      = (compactWalk needed 0 0 (pre ++ .live len h ops pin :: post) p.table).table := by
    simp [Pool.compactPass, hblocks]
  refine ⟨⟨pre', post', by rw [hblk, hb], by rw [hc]; omega⟩, by rw [htab, ht], ?_⟩
  intro hi e
  rw [buflib_get_data_toMemory _ _ h hi e, buflib_get_data_toMemory _ _ h hi e, htab, ht]

/-- C6 on a concrete arena: the pinned movable block of handle 2 stays at
offset 8 behind the hole while the blocks above it are shrunk and moved, and
handle 2 resolves to the same address, 1012, before and after. -/
theorem compactPass_keeps_pinned_witness :
    ((∃ pre' post',
      (poolEx.compactPass 100).1.blocks = pre' ++ .live 8 2 (some movable) 1 :: post' ∧
      arenaCells pre' = arenaCells [.free 8]) ∧
    slotRead (poolEx.compactPass 100).1.table 2 = slotRead poolEx.table 2 ∧
    ∀ hi : CInt, hi.val = ((2 : Nat) : Int) →
      buflib_get_data ((poolEx.compactPass 100).1.toContext 1000)
          ((poolEx.compactPass 100).1.toMemory 1000) hi
        = buflib_get_data (poolEx.toContext 1000) (poolEx.toMemory 1000) hi) ∧
    buflib_get_data ((poolEx.compactPass 100).1.toContext 1000)
        ((poolEx.compactPass 100).1.toMemory 1000) (CInt.ofInt 2) = 1012 ∧
    buflib_get_data (poolEx.toContext 1000) (poolEx.toMemory 1000) (CInt.ofInt 2) = 1012 :=
  ⟨compactPass_keeps_pinned poolEx 100 1000 [.free 8]
      [.live 8 3 (some shrinkable) 0, .live 6 4 (some movable) 0, .free 30] 8 2 1 (some movable)
      rfl (by decide) (by simp [poolEx, Block.headerOk]) (by simp [Block.owner]),
    by decide, by decide⟩

theorem headerOk_cons (c : Block) (l : List Block) (hc : c.headerOk)
    (hl : ∀ x ∈ l, x.headerOk) : ∀ x ∈ c :: l, x.headerOk := by
  intro x hx
  rcases List.mem_cons.mp hx with rfl | hx
  · exact hc
  · exact hl x hx

theorem blockCells_ge (cell size : Nat) : 4 ≤ blockCells cell size := by
  unfold blockCells; exact Nat.le_add_right 4 _

theorem giveTopCells_cells (k : Nat) (l : List Block) :
    arenaCells (giveTopCells k l) = arenaCells l + k := by
  induction l with
  | nil => simp [giveTopCells, arenaCells_pushFree, arenaCells_nil]
  | cons b t ih =>
    cases t with
    | nil =>
      cases b with
      | free n =>
        simp only [giveTopCells, arenaCells_pushFree, arenaCells_cons, arenaCells_nil, Block.len]
        omega
      | live n h o c =>
        simp only [giveTopCells, arenaCells_pushFree, arenaCells_cons, arenaCells_nil, Block.len]
        omega
    | cons c rest =>
      simp only [giveTopCells, arenaCells_cons] at ih ⊢
      omega

theorem giveTopCells_headerOk (k : Nat) (l : List Block) (hl : ∀ b ∈ l, b.headerOk) :
    ∀ b ∈ giveTopCells k l, b.headerOk := by
  induction l with
  | nil => exact headerOk_pushFree k [] (by simp)
  | cons b t ih =>
    cases t with
    | nil =>
      cases b with
      | free n => exact headerOk_pushFree (n + k) [] (by simp)
      | live n h o c =>
        exact headerOk_cons _ _ (hl _ (List.mem_cons_self _ _))
          (headerOk_pushFree k [] (by simp))
    | cons c rest =>
      rw [show giveTopCells k (b :: c :: rest) = b :: giveTopCells k (c :: rest) by
        simp only [giveTopCells]]
      exact headerOk_cons _ _ (hl _ (List.mem_cons_self _ _))
        (ih fun x hx => hl x (List.mem_cons_of_mem _ hx))

theorem takeTopCell_cells (l l' : List Block) (h : takeTopCell l = some l') :
    arenaCells l' + 1 = arenaCells l := by
  induction l generalizing l' with
  | nil => simp [takeTopCell] at h
  | cons b t ih =>
    cases t with
    | nil =>
      cases b with
      | free n =>
        simp only [takeTopCell] at h
        split_ifs at h with hn
        cases h
        simp only [arenaCells_pushFree, arenaCells_cons, arenaCells_nil, Block.len]
        omega
      | live n h' o c => simp [takeTopCell] at h
    | cons c rest =>
      simp only [takeTopCell, Option.map_eq_some'] at h
      obtain ⟨l'', hl'', rfl⟩ := h
      have := ih l'' hl''
      simp only [arenaCells_cons] at this ⊢
      omega

theorem takeTopCell_headerOk (l l' : List Block) (h : takeTopCell l = some l')
    (hl : ∀ b ∈ l, b.headerOk) : ∀ b ∈ l', b.headerOk := by
  induction l generalizing l' with
  | nil => simp [takeTopCell] at h
  | cons b t ih =>
    cases t with
    | nil =>
      cases b with
      | free n =>
        simp only [takeTopCell] at h
        split_ifs at h with hn
        cases h
        exact headerOk_pushFree (n - 1) [] (by simp)
      | live n h' o c => simp [takeTopCell] at h
    | cons c rest =>
      simp only [takeTopCell, Option.map_eq_some'] at h
      obtain ⟨l'', hl'', rfl⟩ := h
      exact headerOk_cons b l'' (hl _ (List.mem_cons_self _ _))
        (ih l'' hl'' fun x hx => hl x (List.mem_cons_of_mem _ hx))

theorem placeBlock_cells (minSplit need h : Nat) (ops : Option buflib_callbacks)
    (l : List Block) :
    ∀ (off : Nat) (l' : List Block) (a : Nat),
      placeBlock minSplit need h ops off l = some (l', a) → arenaCells l' = arenaCells l := by
  induction l with
  | nil => intro off l' a hp; simp [placeBlock] at hp
  | cons b t ih =>
    intro off l' a hp
    cases b with
    | free n =>
      simp only [placeBlock] at hp
      split_ifs at hp with hfit hsplit
      · cases hp
        simp only [arenaCells_cons, Block.len]; omega
      · cases hp
        simp only [arenaCells_cons, Block.len]
      · simp only [Option.map_eq_some'] at hp
        obtain ⟨⟨l'', a'⟩, hr, he⟩ := hp
        cases he
        simp only [arenaCells_cons, ih _ _ _ hr]
    | live n h' o c =>
      simp only [placeBlock, Option.map_eq_some'] at hp
      obtain ⟨⟨l'', a'⟩, hr, he⟩ := hp
      cases he
      simp only [arenaCells_cons, ih _ _ _ hr]

theorem placeBlock_headerOk (minSplit need h : Nat) (ops : Option buflib_callbacks)
    (hneed : 4 ≤ need) (l : List Block) :
    ∀ (off : Nat) (l' : List Block) (a : Nat),
      placeBlock minSplit need h ops off l = some (l', a) →
      (∀ b ∈ l, b.headerOk) → ∀ b ∈ l', b.headerOk := by
  induction l with
  | nil => intro off l' a hp; simp [placeBlock] at hp
  | cons b t ih =>
    intro off l' a hp hl
    have ht : ∀ x ∈ t, x.headerOk := fun x hx => hl x (List.mem_cons_of_mem _ hx)
    cases b with
    | free n =>
      simp only [placeBlock] at hp
      split_ifs at hp with hfit hsplit
      · cases hp
        exact headerOk_cons _ _ (show 4 ≤ need from hneed) (headerOk_cons _ _ trivial ht)
      · cases hp
        exact headerOk_cons _ _ (show 4 ≤ n by omega) ht
      · simp only [Option.map_eq_some'] at hp
        obtain ⟨⟨l'', a'⟩, hr, he⟩ := hp
        cases he
        exact headerOk_cons _ _ trivial (ih _ _ _ hr ht)
    | live n h' o c =>
      simp only [placeBlock, Option.map_eq_some'] at hp
      obtain ⟨⟨l'', a'⟩, hr, he⟩ := hp
      cases he
      exact headerOk_cons _ _ (hl _ (List.mem_cons_self _ _)) (ih _ _ _ hr ht)


theorem freeAt_cells (l : List Block) :
    ∀ off : Nat, arenaCells (freeAt off l) = arenaCells l := by
  induction l with
  | nil => intro off; simp [freeAt]
  | cons b t ih =>
    intro off
    cases b with
    | live len h ops pin =>
      simp only [freeAt]
      split_ifs with h0 h1
      · simp only [arenaCells_pushFree, arenaCells_cons, Block.len]
      · rfl
      · simp only [arenaCells_cons, ih]
    | free n =>
      simp only [freeAt]
      split_ifs with h0 h1
      · rfl
      · simp only [arenaCells_pushFree, arenaCells_cons, ih, Block.len]
      · simp only [arenaCells_cons, ih]

theorem freeAt_headerOk (l : List Block) :
    ∀ off : Nat, (∀ b ∈ l, b.headerOk) → ∀ b ∈ freeAt off l, b.headerOk := by
  induction l with
  | nil => intro off hl; simp [freeAt]
  | cons b t ih =>
    intro off hl
    have ht : ∀ x ∈ t, x.headerOk := fun x hx => hl x (List.mem_cons_of_mem _ hx)
    cases b with
    | live len h ops pin =>
      simp only [freeAt]
      split_ifs with h0 h1
      · exact headerOk_pushFree _ _ ht
      · exact hl
      · exact headerOk_cons _ _ (hl _ (List.mem_cons_self _ _)) (ih _ ht)
    | free n =>
      simp only [freeAt]
      split_ifs with h0 h1
      · exact hl
      · exact headerOk_pushFree _ _ (ih _ ht)
      · exact headerOk_cons _ _ trivial (ih _ ht)

theorem updateAt_cells (f : Block → List Block → List Block)
    (hf : ∀ b rest, arenaCells (f b rest) = arenaCells (b :: rest)) (l : List Block) :
    ∀ off : Nat, arenaCells (updateAt f off l) = arenaCells l := by
  induction l with
  | nil => intro off; simp [updateAt]
  | cons b t ih =>
    intro off
    simp only [updateAt]
    split_ifs with h0 h1
    · exact hf b t
    · rfl
    · simp only [arenaCells_cons, ih]

theorem updateAt_headerOk (f : Block → List Block → List Block)
    (hf : ∀ b rest, (∀ x ∈ b :: rest, x.headerOk) → ∀ x ∈ f b rest, x.headerOk)
    (l : List Block) :
    ∀ off : Nat, (∀ b ∈ l, b.headerOk) → ∀ b ∈ updateAt f off l, b.headerOk := by
  induction l with
  | nil => intro off hl; simp [updateAt]
  | cons b t ih =>
    intro off hl
    have ht : ∀ x ∈ t, x.headerOk := fun x hx => hl x (List.mem_cons_of_mem _ hx)
    simp only [updateAt]
    split_ifs with h0 h1
    · exact hf b t hl
    · exact hl
    · exact headerOk_cons _ _ (hl _ (List.mem_cons_self _ _)) (ih _ ht)

theorem truncateTo_cells (newLen : Nat) (b : Block) (rest : List Block) :
    arenaCells (truncateTo newLen b rest) = arenaCells (b :: rest) := by
  cases b with
  | free n => rfl
  | live len h ops pin =>
    simp only [truncateTo]
    split_ifs with hle
    · simp only [arenaCells_cons, arenaCells_pushFree, Block.len]; omega
    · rfl

theorem truncateTo_headerOk (newLen : Nat) (hnew : 4 ≤ newLen) (b : Block) (rest : List Block)
    (hl : ∀ x ∈ b :: rest, x.headerOk) : ∀ x ∈ truncateTo newLen b rest, x.headerOk := by
  have ht : ∀ x ∈ rest, x.headerOk := fun x hx => hl x (List.mem_cons_of_mem _ hx)
  cases b with
  | free n => exact hl
  | live len h ops pin =>
    simp only [truncateTo]
    split_ifs with hle
    · exact headerOk_cons _ _ (show 4 ≤ newLen from hnew) (headerOk_pushFree _ _ ht)
    · exact hl

theorem repin_cells (g : Nat → Nat) (b : Block) (rest : List Block) :
    arenaCells (repin g b rest) = arenaCells (b :: rest) := by
  cases b <;> rfl

theorem repin_headerOk (g : Nat → Nat) (b : Block) (rest : List Block)
    (hl : ∀ x ∈ b :: rest, x.headerOk) : ∀ x ∈ repin g b rest, x.headerOk := by
  have ht : ∀ x ∈ rest, x.headerOk := fun x hx => hl x (List.mem_cons_of_mem _ hx)
  cases b with
  | free n => exact hl
  | live len h ops pin =>
    exact headerOk_cons _ _ (show 4 ≤ len from hl _ (List.mem_cons_self _ _)) ht

theorem trimTable_length_le (table : List (Option Nat)) :
    (trimTable table).length ≤ table.length :=
  (List.rdropWhile_prefix _ table).length_le


theorem init_sound (cell minSplit size : Nat) :
    (Pool.init cell minSplit size).sound size := by
  refine ⟨rfl, ?_, ?_⟩
  · simp [Pool.init, arenaCells_pushFree, arenaCells_nil]
  · exact headerOk_pushFree size [] (by simp)

theorem compactPass_sound (n needed : Nat) (p : Pool) (hp : p.sound n) :
    (p.compactPass needed).1.sound n := by
  obtain ⟨hs, hc, hh⟩ := hp
  refine ⟨hs, ?_, ?_⟩
  · show arenaCells (compactWalk needed 0 0 p.blocks p.table).blocks
      + (compactWalk needed 0 0 p.blocks p.table).table.length = n
    rw [compactWalk_cells _ _ _ _ _ hh, compactWalk_table_length]
    omega
  · exact compactWalk_headerOk _ _ _ _ _ hh

theorem retreat_sound (n : Nat) (p : Pool) (hp : p.sound n) : p.retreat.sound n := by
  obtain ⟨hs, hc, hh⟩ := hp
  refine ⟨hs, ?_, ?_⟩
  · show arenaCells (giveTopCells _ p.blocks) + (trimTable p.table).length = n
    rw [giveTopCells_cells]
    have := trimTable_length_le p.table
    omega
  · exact giveTopCells_headerOk _ _ hh

theorem takeSlot_sound (n : Nat) (p p2 : Pool) (h : Nat) (hp : p.sound n)
    (ht : p.takeSlot = some (p2, h)) : p2.sound n := by
  obtain ⟨hs, hc, hh⟩ := hp
  unfold Pool.takeSlot at ht
  split at ht
  · cases ht
    exact ⟨hs, hc, hh⟩
  · split at ht
    · cases ht
    · rename_i blocks hb
      cases ht
      refine ⟨hs, ?_, takeTopCell_headerOk _ _ hb hh⟩
      have := takeTopCell_cells _ _ hb
      simp only [List.length_append, List.length_singleton]
      omega

theorem makeRoom_sound (n need : Nat) (p : Pool) (hp : p.sound n) :
    (p.makeRoom need).1.sound n := by
  unfold Pool.makeRoom
  split_ifs with hfit hlast
  · exact hp
  · exact retreat_sound n p hp
  · exact compactPass_sound n _ p hp

theorem placeNew_sound (n need : Nat) (hneed : 4 ≤ need) (ops : Option buflib_callbacks)
    (p1 : Pool) (hp1 : p1.sound n) : (p1.placeNew need ops).1.sound n := by
  unfold Pool.placeNew
  split_ifs with hfit
  · cases hts : p1.takeSlot with
    | none => exact hp1
    | some ph =>
      obtain ⟨p2, h⟩ := ph
      have hp2 := takeSlot_sound n p1 p2 h hp1 hts
      simp only
      cases hpl : placeBlock p1.minSplit need h ops 0 p2.blocks with
      | none => exact hp1
      | some bo =>
        obtain ⟨blocks, off⟩ := bo
        obtain ⟨hs2, hc2, hh2⟩ := hp2
        refine ⟨hs2, ?_, ?_⟩
        · show arenaCells blocks + (slotWrite p2.table h (some (off + 4))).length = n
          rw [placeBlock_cells _ _ _ _ _ _ _ _ hpl, slotWrite_length]
          exact hc2
        · exact placeBlock_headerOk _ _ _ _ hneed _ _ _ _ hpl hh2
  · exact hp1

theorem allocate_sound (n size : Nat) (ops : Option buflib_callbacks) (p : Pool)
    (hp : p.sound n) : (p.allocate size ops).1.sound n := by
  unfold Pool.allocate
  split_ifs with hc
  · exact hp
  · have hroom := makeRoom_sound n (blockCells p.cell size) p hp
    rcases hmk : p.makeRoom (blockCells p.cell size) with ⟨p1, r⟩
    rw [hmk] at hroom
    cases r with
    | error e => exact hroom
    | ok u => exact placeNew_sound n _ (blockCells_ge _ _) ops p1 hroom

theorem free_sound (n h : Nat) (p : Pool) (hp : p.sound n) : (p.free h).1.sound n := by
  unfold Pool.free
  split_ifs with hc
  · exact hp
  · cases hsl : slotRead p.table h with
    | none => exact hp
    | some a =>
      obtain ⟨hs, hcells, hh⟩ := hp
      apply retreat_sound
      refine ⟨hs, ?_, freeAt_headerOk _ _ hh⟩
      show arenaCells (freeAt (a - 4) p.blocks) + (slotWrite p.table h none).length = n
      rw [freeAt_cells, slotWrite_length]
      exact hcells

theorem shrink_sound (n h new_size : Nat) (p : Pool) (hp : p.sound n) :
    (p.shrink h new_size).1.sound n := by
  unfold Pool.shrink
  split_ifs with hc
  · exact hp
  · cases hsl : slotRead p.table h with
    | none => exact hp
    | some a =>
      obtain ⟨hs, hcells, hh⟩ := hp
      refine ⟨hs, ?_, ?_⟩
      · show arenaCells (updateAt _ (a - 4) p.blocks) + p.table.length = n
        rw [updateAt_cells _ (truncateTo_cells _)]
        exact hcells
      · exact updateAt_headerOk _ (truncateTo_headerOk _ (blockCells_ge _ _)) _ _ hh

theorem pin_sound (n h : Nat) (p : Pool) (hp : p.sound n) : (p.pin h).1.sound n := by
  unfold Pool.pin
  cases hsl : slotRead p.table h with
  | none => exact hp
  | some a =>
    obtain ⟨hs, hcells, hh⟩ := hp
    refine ⟨hs, ?_, ?_⟩
    · show arenaCells (updateAt _ (a - 4) p.blocks) + p.table.length = n
      rw [updateAt_cells _ (repin_cells _)]
      exact hcells
    · exact updateAt_headerOk _ (repin_headerOk _) _ _ hh

theorem unpin_sound (n h : Nat) (p : Pool) (hp : p.sound n) : (p.unpin h).1.sound n := by
  unfold Pool.unpin
  cases hsl : slotRead p.table h with
  | none => exact hp
  | some a =>
    obtain ⟨hs, hcells, hh⟩ := hp
    refine ⟨hs, ?_, ?_⟩
    · show arenaCells (updateAt _ (a - 4) p.blocks) + p.table.length = n
      rw [updateAt_cells _ (repin_cells _)]
      exact hcells
    · exact updateAt_headerOk _ (repin_headerOk _) _ _ hh

theorem apply_sound (n : Nat) (op : PoolOp) (p : Pool) (hp : p.sound n) :
    (op.apply p).sound n := by
  cases op with
  | allocate size ops => exact allocate_sound n size ops p hp
  | free h => exact free_sound n h p hp
  | shrink h new_size => exact shrink_sound n h new_size p hp
  | compact needed => exact compactPass_sound n needed p hp
  | pin h => exact pin_sound n h p hp
  | unpin h => exact unpin_sound n h p hp

theorem runOps_sound (n : Nat) (ops : List PoolOp) :
    ∀ p : Pool, p.sound n → (runOps ops p).sound n := by
  induction ops with
  | nil => intro p hp; exact hp
  | cons op rest ih =>
    intro p hp
    exact ih _ (apply_sound n op p hp)

/-- C7. Conservation. After initialisation and after every operation of every
sequence of allocate, free, shrink, compact, pin and unpin that follows it, on
a buffer of `size` cells, the sizes of the live blocks plus the sizes of the
free blocks plus the size of the handle table equal the buffer size. -/
theorem pool_conservation (cell minSplit size : Nat) (ops : List PoolOp) :
    liveCells (runOps ops (Pool.init cell minSplit size)).blocks
      + freeCells (runOps ops (Pool.init cell minSplit size)).blocks
      + (runOps ops (Pool.init cell minSplit size)).table.length = size ∧
    (runOps ops (Pool.init cell minSplit size)).size = size := by
  obtain ⟨hs, hc, -⟩ := runOps_sound size ops _ (init_sound cell minSplit size)
  rw [arenaCells_eq] at hc
  exact ⟨hc, hs⟩

end Rockbox
